import Mathlib

/-!
Verification of `jupyterlab/_version.py`.

The module stores `__version__ = '1.0.0a3'` and runs
`re.match(patt, __version__)` with

  patt = r'(?P<major>\d+)\.(?P<minor>\d+)\.(?P<patch>\d+)((?P<release>\S+)(?P<build>\d+))?'

then builds a `VersionInfo` namedtuple from the captures:

  major = match['major']; minor = match['minor']; micro = match['patch']
  release = match['release'] or 'final'
  build = match['build'] or 0
  if release == 'a': release = 'alpha'
  elif release == 'rc': release = 'candidate'
  version_info = VersionInfo(major, minor, micro, release, build)

The embedding below compiles that fixed regular expression, with Python's
leftmost / greedy-with-backtracking semantics, into executable functions on
`List Char`, restricted to the ASCII fragment of `\d` (decimal digits
`'0'..'9'`) and `\s` (the six ASCII whitespace characters) that version
strings use.

Compilation notes, justifying the shape of `reMatch`:
* `re.match` anchors at the start of the string only; trailing unmatched
  text is allowed.
* Each `\d+` is greedy.  `(?P<major>\d+)\.` never needs backtracking: the
  character after a maximal digit run is not a digit, so no shorter run can
  make the literal `'.'` match either.  Likewise for `minor`.  For `patch`,
  the following group is optional, so the overall pattern already succeeds
  with the maximal run and the engine reports that first success without
  shrinking `patch`.
* The optional group `((?P<release>\S+)(?P<build>\d+))?` at position after
  `patch`: `\S+` first takes the longest possible release capture, then
  backtracks one character at a time until the greedy `\d+` can capture at
  least one digit; the pattern ends there.  `groupTry t n` tries release
  lengths `n, n-1, ..., 1` in that order; lengths beyond the maximal
  non-whitespace prefix simply fail the all-non-whitespace test, which gives
  the same first success as the engine.
-/

namespace JupyterVersion

/-- Python `\s` on the ASCII fragment: space, tab, newline, carriage return,
vertical tab, form feed. -/
def pyIsSpace (c : Char) : Bool :=
  c = ' ' || c = '\t' || c = '\n' || c = '\r' || c = '\x0b' || c = '\x0c'

/-- Greedy `\d+`: the maximal digit prefix of the input. -/
def takeDigits : List Char → List Char
  | [] => []
  | c :: cs => if c.isDigit then c :: takeDigits cs else []

/-- What is left of the input after the maximal digit prefix. -/
def dropDigits : List Char → List Char
  | [] => []
  | c :: cs => if c.isDigit then dropDigits cs else c :: cs

/-- Does release length `k` succeed for the suffix group at `t`: the release
capture `t.take k` must be all non-whitespace (`\S+`) and at least one digit
must follow it (`\d+` is greedy, so the build capture is the maximal digit
run after position `k`). -/
def tryOk (t : List Char) (k : Nat) : Bool :=
  (t.take k).all (fun c => !(pyIsSpace c)) && !(takeDigits (t.drop k)).isEmpty

/-- Backtracking of `(?P<release>\S+)(?P<build>\d+)`: try release lengths
from `n` down to `1`, returning the captures of the first success. -/
def groupTry (t : List Char) : Nat → Option (List Char × List Char)
  | 0 => none
  | k + 1 =>
    if tryOk t (k + 1) then some (t.take (k + 1), takeDigits (t.drop (k + 1)))
    else groupTry t k

/-- The optional suffix group `((?P<release>\S+)(?P<build>\d+))?` applied at
`t`: `none` when the group does not participate in the match. -/
def groupMatch (t : List Char) : Option (List Char × List Char) :=
  groupTry t t.length

/-- The captures of a successful `re.match(patt, s)`:
groups `major`, `minor`, `patch`, and the optional compound suffix
(`release` and `build` captures). -/
structure MatchResult where
  major : List Char
  minor : List Char
  patch : List Char
  group : Option (List Char × List Char)
deriving Repr, DecidableEq

/-- `re.match(patt, s)` for the fixed pattern
`(?P<major>\d+)\.(?P<minor>\d+)\.(?P<patch>\d+)((?P<release>\S+)(?P<build>\d+))?`,
anchored at the start, trailing text ignored. -/
def reMatch (s : List Char) : Option MatchResult :=
  if (takeDigits s).isEmpty then none else
    match dropDigits s with
    | c1 :: s1 =>
      if c1 = '.' then
        if (takeDigits s1).isEmpty then none else
          match dropDigits s1 with
          | c2 :: s2 =>
            if c2 = '.' then
              if (takeDigits s2).isEmpty then none else
                some ⟨takeDigits s, takeDigits s1, takeDigits s2,
                      groupMatch (dropDigits s2)⟩
            else none
          | [] => none
      else none
    | [] => none

/-- A Python value held by a namedtuple field: the module stores either an
`int` or a `str` in the fields of `VersionInfo`. -/
inductive PyVal where
  | int : Int → PyVal
  | str : String → PyVal
deriving Repr, DecidableEq

/-- The `VersionInfo` namedtuple.  Fields are dynamically typed in Python;
`releaselevel` is always assigned a string by the module, the other four
fields are modelled as `PyVal`. -/
structure VersionInfo where
  major : PyVal
  minor : PyVal
  micro : PyVal
  releaselevel : String
  serial : PyVal
deriving Repr, DecidableEq

/-- The `if release == 'a' ... elif release == 'rc' ...` normalization. -/
def normalizeRelease (r : String) : String :=
  if r = "a" then "alpha" else if r = "rc" then "candidate" else r

/-- The module-level computation of `version_info` from a version string,
as a function.  `none` models the failure path where `match` is `None` and
subscripting it raises (no record is produced).  `match['release'] or
'final'` and `match['build'] or 0` use Python truthiness: a missing group
(`None`) or an empty capture falls back to the default. -/
def parseVersion (s : String) : Option VersionInfo :=
  match reMatch s.data with
  | none => none
  | some m =>
    let release :=
      match m.group with
      | some (r, _) => if r.isEmpty then "final" else String.mk r
      | none => "final"
    let build : PyVal :=
      match m.group with
      | some (_, b) => if b.isEmpty then PyVal.int 0 else PyVal.str (String.mk b)
      | none => PyVal.int 0
    some ⟨PyVal.str (String.mk m.major), PyVal.str (String.mk m.minor),
          PyVal.str (String.mk m.patch), normalizeRelease release, build⟩

/-- The hard-coded module version string `__version__`. -/
def versionString : String := "1.0.0a3"

/-- The module-level constant `version_info`. -/
def version_info : Option VersionInfo := parseVersion versionString

/-- The raw captures of the optional suffix group for an input string,
before normalization: `none` when the group did not participate (or the
whole match failed). -/
def rawGroup (s : String) : Option (List Char × List Char) :=
  match reMatch s.data with
  | some m => m.group
  | none => none

/-- Modelled from the spec: the source has no rendering function, but the
spec's idempotence property speaks of "the canonical string representation"
of a produced record.  Canonical form: `major.minor.micro` with the
releaselevel and serial appended when a pre-release suffix is present
(serial held as a string), and nothing appended otherwise. -/
def render (v : VersionInfo) : String :=
  match v.major, v.minor, v.micro, v.serial with
  | PyVal.str a, PyVal.str b, PyVal.str c, PyVal.str d =>
      a ++ "." ++ b ++ "." ++ c ++ v.releaselevel ++ d
  | PyVal.str a, PyVal.str b, PyVal.str c, PyVal.int _ =>
      a ++ "." ++ b ++ "." ++ c
  | _, _, _, _ => ""

/-! ### Basic lemmas about the digit-run scanner -/

theorem takeDigits_nil : takeDigits [] = [] := rfl

theorem dropDigits_nil : dropDigits [] = [] := rfl

theorem takeDigits_cons_of_not {c : Char} (t : List Char) (h : c.isDigit = false) :
    takeDigits (c :: t) = [] := by
  simp [takeDigits, h]

theorem dropDigits_cons_of_not {c : Char} (t : List Char) (h : c.isDigit = false) :
    dropDigits (c :: t) = c :: t := by
  simp [dropDigits, h]

theorem takeDigits_all : ∀ t : List Char, (takeDigits t).all Char.isDigit = true
  | [] => rfl
  | c :: cs => by
    by_cases h : c.isDigit
    · simp [takeDigits, h, takeDigits_all cs]
    · simp [takeDigits, h]

theorem takeDigits_append {X : List Char} (t : List Char)
    (h : X.all Char.isDigit = true) : takeDigits (X ++ t) = X ++ takeDigits t := by
  induction X with
  | nil => simp
  | cons c cs ih =>
    simp only [List.all_cons, Bool.and_eq_true] at h
    simp [takeDigits, h.1, ih h.2]

theorem dropDigits_append {X : List Char} (t : List Char)
    (h : X.all Char.isDigit = true) : dropDigits (X ++ t) = dropDigits t := by
  induction X with
  | nil => simp
  | cons c cs ih =>
    simp only [List.all_cons, Bool.and_eq_true] at h
    simp [dropDigits, h.1, ih h.2]

theorem dropDigits_eq_self {t : List Char} (h : takeDigits t = []) :
    dropDigits t = t := by
  cases t with
  | nil => rfl
  | cons c cs =>
    by_cases hc : c.isDigit
    · simp [takeDigits, hc] at h
    · simp [dropDigits, hc]

theorem takeDigits_dropDigits : ∀ t : List Char, takeDigits (dropDigits t) = []
  | [] => rfl
  | c :: cs => by
    by_cases h : c.isDigit
    · simp [dropDigits, h, takeDigits_dropDigits cs]
    · simp [dropDigits, takeDigits, h]

theorem takeDigits_eq_nil_of_head {c : Char} {t : List Char}
    (h : takeDigits (c :: t) = []) (u : List Char) :
    takeDigits ((c :: t) ++ u) = [] := by
  by_cases hc : c.isDigit
  · simp [takeDigits, hc] at h
  · simp [takeDigits, hc]

/-- A decimal digit is not whitespace. -/
theorem digit_not_space {c : Char} (h : c.isDigit = true) : pyIsSpace c = false := by
  simp only [Char.isDigit, decide_eq_true_eq, Bool.and_eq_true] at h
  simp only [pyIsSpace, Bool.or_eq_false_iff, decide_eq_false_iff_not]
  have h1 : ('0' : Char) ≤ c := by
    simpa using h.1
  refine ⟨⟨⟨⟨⟨?_, ?_⟩, ?_⟩, ?_⟩, ?_⟩, ?_⟩ <;>
    (rintro rfl; revert h1; decide)

/-! ### Characterization of the suffix-group backtracking -/

/-- A success of `groupTry` is the success with the longest release capture:
some length `k` in range succeeded and every longer length in range failed. -/
theorem groupTry_eq_some {t : List Char} :
    ∀ {n : Nat} {r b : List Char}, groupTry t n = some (r, b) →
      ∃ k, 0 < k ∧ k ≤ n ∧ tryOk t k = true ∧ r = t.take k ∧
        b = takeDigits (t.drop k) ∧ ∀ m, k < m → m ≤ n → tryOk t m = false := by
  intro n
  induction n with
  | zero => intro r b h; simp [groupTry] at h
  | succ n ih =>
    intro r b h
    by_cases hok : tryOk t (n + 1) = true
    · simp only [groupTry, hok, if_true, Option.some.injEq, Prod.mk.injEq] at h
      exact ⟨n + 1, Nat.succ_pos n, Nat.le_refl _, hok, h.1.symm, h.2.symm,
        fun m hm hm2 => absurd (Nat.lt_of_lt_of_le hm hm2) (Nat.lt_irrefl _)⟩
    · simp only [groupTry, hok, if_false] at h
      obtain ⟨k, hk0, hkn, hkok, hr, hb, hmax⟩ := ih h
      refine ⟨k, hk0, Nat.le_succ_of_le hkn, hkok, hr, hb, fun m hm hm2 => ?_⟩
      rcases Nat.lt_or_ge m (n + 1) with hlt | hge
      · exact hmax m hm (Nat.lt_succ_iff.mp hlt)
      · have : m = n + 1 := Nat.le_antisymm hm2 hge
        subst this
        exact Bool.eq_false_iff.mpr hok

/-- Structure of a successful suffix-group match: the release capture is a
nonempty all-non-whitespace block, the build capture is exactly one digit
(the greedy `\S+` keeps every earlier digit), and no digit follows it. -/
theorem groupMatch_spec {t r b : List Char} (h : groupMatch t = some (r, b)) :
    r ≠ [] ∧ (r.all fun c => !(pyIsSpace c)) = true ∧
      ∃ c rest, c.isDigit = true ∧ b = [c] ∧ t = r ++ c :: rest ∧
        takeDigits rest = [] := by
  obtain ⟨k, hk0, hkn, hkok, hr, hb, hmax⟩ := groupTry_eq_some h
  simp only [tryOk, Bool.and_eq_true, Bool.not_eq_true', List.isEmpty_eq_false]
    at hkok
  obtain ⟨hall, hne⟩ := hkok
  -- the drop at k is nonempty since its digit run is
  have hdropne : t.drop k ≠ [] := by
    intro hnil
    rw [hnil] at hne
    exact hne rfl
  obtain ⟨c, rest, hdrop⟩ := List.exists_cons_of_ne_nil hdropne
  have hklt : k < t.length := by
    by_contra hge
    rw [List.drop_eq_nil_of_le (Nat.le_of_not_lt hge)] at hdrop
    exact List.noConfusion hdrop
  have hcdig : c.isDigit = true := by
    by_contra hcd
    rw [hdrop, takeDigits_cons_of_not rest (Bool.eq_false_iff.mpr hcd)] at hne
    exact hne rfl
  -- `take (k+1)` appends the digit to the release capture
  have hget : t[k]? = some c := by
    rw [← List.head?_drop, hdrop, List.head?_cons]
  have htake1 : t.take (k + 1) = t.take k ++ [c] := by
    rw [List.take_succ, hget, Option.toList_some]
  -- the next longer release length fails, so no digit follows `c`
  have hfail : tryOk t (k + 1) = false := hmax (k + 1) (Nat.lt_succ_self k)
    (Nat.succ_le_of_lt hklt)
  have hallc : ((t.take (k + 1)).all fun x => !(pyIsSpace x)) = true := by
    rw [htake1]
    simp only [List.all_append, Bool.and_eq_true, List.all_cons, List.all_nil]
    exact ⟨hall, by simp [digit_not_space hcdig], trivial⟩
  have hrest : takeDigits (t.drop (k + 1)) = [] := by
    simp only [tryOk, Bool.and_eq_false_iff] at hfail
    rcases hfail with hfail | hfail
    · rw [hallc] at hfail; exact Bool.noConfusion hfail
    · rw [Bool.not_eq_false', List.isEmpty_eq_true] at hfail
      exact hfail
  have hdrop1 : t.drop (k + 1) = rest := by
    have h2 : t.drop (k + 1) = (t.drop k).drop 1 := by
      rw [List.drop_drop, Nat.add_comm]
    rw [h2, hdrop, List.drop_one, List.tail_cons]
  rw [hdrop1] at hrest
  refine ⟨?_, ?_, c, rest, hcdig, ?_, ?_, hrest⟩
  · rw [hr]
    intro hnil
    have h1 : (t.take k).length = k := List.length_take_of_le (Nat.le_of_lt hklt)
    rw [hnil] at h1
    simp only [List.length_nil] at h1
    omega
  · rw [hr]; exact hall
  · rw [hb, hdrop, takeDigits]
    simp [hcdig, hrest]
  · conv_lhs => rw [← List.take_append_drop k t]
    rw [hr, hdrop]

/-- Constructive direction: when the text after `patch` is a non-whitespace
block `T` followed by a single digit `d` (and nothing else), the suffix group
captures exactly `(T, [d])`. -/
theorem groupMatch_append_single (T : List Char) (d : Char) (hT : T ≠ [])
    (hns : (T.all fun c => !(pyIsSpace c)) = true) (hd : d.isDigit = true) :
    groupMatch (T ++ [d]) = some (T, [d]) := by
  have hlen : (T ++ [d]).length = T.length + 1 := by simp
  obtain ⟨n, hn⟩ : ∃ n, T.length = n + 1 := by
    cases hT2 : T with
    | nil => exact absurd hT2 hT
    | cons a l => exact ⟨l.length, by simp⟩
  -- the longest release length (the whole text) leaves no digit for `build`
  have hfailtop : tryOk (T ++ [d]) (T.length + 1) = false := by
    simp only [tryOk, Bool.and_eq_false_iff]
    right
    rw [Bool.not_eq_false']
    have : (T ++ [d]).drop (T.length + 1) = [] :=
      List.drop_eq_nil_of_le (by simp)
    rw [this, takeDigits_nil, List.isEmpty_nil]
  -- release length `T.length` succeeds
  have hok : tryOk (T ++ [d]) T.length = true := by
    simp only [tryOk, Bool.and_eq_true]
    constructor
    · rw [List.take_left' rfl]
      exact hns
    · rw [List.drop_left' rfl]
      simp [takeDigits, hd]
  unfold groupMatch
  rw [hlen, hn]
  show groupTry (T ++ [d]) (n + 1 + 1) = some (T, [d])
  unfold groupTry
  rw [← hn, hfailtop]
  simp only [Bool.false_eq_true, if_false]
  rw [hn]
  unfold groupTry
  rw [← hn, hok]
  simp only [if_true]
  rw [List.take_left' rfl, List.drop_left' rfl]
  simp [takeDigits, hd]

/-! ### Structure of the full match -/

/-- The full match on a well-shaped input: three dotted digit runs followed
by arbitrary text `rest`.  The `patch` capture absorbs any further leading
digits of `rest`, and the optional group is matched on what remains. -/
theorem reMatch_append (X Y Z rest : List Char)
    (hX : X ≠ []) (hXd : X.all Char.isDigit = true)
    (hY : Y ≠ []) (hYd : Y.all Char.isDigit = true)
    (hZ : Z ≠ []) (hZd : Z.all Char.isDigit = true) :
    reMatch (X ++ '.' :: (Y ++ '.' :: (Z ++ rest))) =
      some ⟨X, Y, Z ++ takeDigits rest, groupMatch (dropDigits rest)⟩ := by
  have hdot : ('.' : Char).isDigit = false := by decide
  have h1 : takeDigits (X ++ '.' :: (Y ++ '.' :: (Z ++ rest))) = X := by
    rw [takeDigits_append _ hXd, takeDigits_cons_of_not _ hdot, List.append_nil]
  have h2 : dropDigits (X ++ '.' :: (Y ++ '.' :: (Z ++ rest))) =
      '.' :: (Y ++ '.' :: (Z ++ rest)) := by
    rw [dropDigits_append _ hXd, dropDigits_cons_of_not _ hdot]
  have h3 : takeDigits (Y ++ '.' :: (Z ++ rest)) = Y := by
    rw [takeDigits_append _ hYd, takeDigits_cons_of_not _ hdot, List.append_nil]
  have h4 : dropDigits (Y ++ '.' :: (Z ++ rest)) = '.' :: (Z ++ rest) := by
    rw [dropDigits_append _ hYd, dropDigits_cons_of_not _ hdot]
  have h5 : takeDigits (Z ++ rest) = Z ++ takeDigits rest := takeDigits_append _ hZd
  have h6 : dropDigits (Z ++ rest) = dropDigits rest := dropDigits_append _ hZd
  have hZr : (Z ++ takeDigits rest).isEmpty = false :=
    List.isEmpty_eq_false.mpr (by simp [hZ])
  unfold reMatch
  rw [h1, h2]
  simp only [List.isEmpty_eq_false.mpr hX, Bool.false_eq_true, if_false, if_pos rfl]
  rw [h3, h4]
  simp only [List.isEmpty_eq_false.mpr hY, Bool.false_eq_true, if_false, if_pos rfl]
  rw [h5, h6, hZr]
  simp

/-- Every successful match consists of three nonempty all-digit captures,
and the suffix group is matched on a text that starts with a non-digit. -/
theorem reMatch_spec {s : List Char} {m : MatchResult} (h : reMatch s = some m) :
    m.major ≠ [] ∧ m.major.all Char.isDigit = true ∧
      m.minor ≠ [] ∧ m.minor.all Char.isDigit = true ∧
      m.patch ≠ [] ∧ m.patch.all Char.isDigit = true ∧
      ∃ t, takeDigits t = [] ∧ m.group = groupMatch t := by
  unfold reMatch at h
  by_cases h0 : (takeDigits s).isEmpty = true
  · rw [if_pos h0] at h; exact absurd h (by simp)
  rw [if_neg h0] at h
  cases hds : dropDigits s with
  | nil => simp [hds] at h
  | cons c1 s1 =>
    simp only [hds] at h
    by_cases hc1 : c1 = '.'
    · rw [if_pos hc1] at h
      by_cases h1 : (takeDigits s1).isEmpty = true
      · rw [if_pos h1] at h; exact absurd h (by simp)
      rw [if_neg h1] at h
      cases hds1 : dropDigits s1 with
      | nil => simp [hds1] at h
      | cons c2 s2 =>
        simp only [hds1] at h
        by_cases hc2 : c2 = '.'
        · rw [if_pos hc2] at h
          by_cases h2 : (takeDigits s2).isEmpty = true
          · rw [if_pos h2] at h; exact absurd h (by simp)
          rw [if_neg h2] at h
          injection h with h
          subst h
          refine ⟨?_, takeDigits_all s, ?_, takeDigits_all s1, ?_,
            takeDigits_all s2, dropDigits s2, takeDigits_dropDigits s2, rfl⟩
          · exact fun hnil => h0 (by simp [show takeDigits s = [] from hnil])
          · exact fun hnil => h1 (by simp [show takeDigits s1 = [] from hnil])
          · exact fun hnil => h2 (by simp [show takeDigits s2 = [] from hnil])
        · rw [if_neg hc2] at h; exact absurd h (by simp)
    · rw [if_neg hc1] at h; exact absurd h (by simp)

/-! ### Normalization and string helpers -/

theorem normalizeRelease_ne (x : String) :
    normalizeRelease x ≠ "a" ∧ normalizeRelease x ≠ "rc" := by
  unfold normalizeRelease
  by_cases h1 : x = "a"
  · rw [if_pos h1]; exact ⟨by decide, by decide⟩
  rw [if_neg h1]
  by_cases h2 : x = "rc"
  · rw [if_pos h2]; exact ⟨by decide, by decide⟩
  · rw [if_neg h2]; exact ⟨h1, h2⟩

theorem normalizeRelease_of_ne {x : String} (h1 : x ≠ "a") (h2 : x ≠ "rc") :
    normalizeRelease x = x := by
  unfold normalizeRelease
  rw [if_neg h1, if_neg h2]

theorem normalizeRelease_cases (x : String) :
    normalizeRelease x = "alpha" ∨ normalizeRelease x = "candidate" ∨
      normalizeRelease x = x := by
  unfold normalizeRelease
  by_cases h1 : x = "a"
  · rw [if_pos h1]; exact Or.inl rfl
  rw [if_neg h1]
  by_cases h2 : x = "rc"
  · rw [if_pos h2]; exact Or.inr (Or.inl rfl)
  · rw [if_neg h2]; exact Or.inr (Or.inr rfl)

theorem strMk_append (a b : List Char) :
    String.mk a ++ String.mk b = String.mk (a ++ b) := rfl

theorem strMk_data (s : String) : String.mk s.data = s := rfl

theorem groupMatch_nil : groupMatch [] = none := rfl

theorem takeDigits_append_nil {T : List Char} (hT : T ≠ [])
    (h : takeDigits T = []) (u : List Char) : takeDigits (T ++ u) = [] := by
  cases T with
  | nil => exact absurd rfl hT
  | cons c cs =>
    by_cases hc : c.isDigit
    · simp [takeDigits, hc] at h
    · exact takeDigits_cons_of_not _ (Bool.eq_false_iff.mpr hc)

theorem takeDigits_nil_of_append {A u : List Char}
    (h : takeDigits (A ++ u) = []) : takeDigits A = [] := by
  cases A with
  | nil => rfl
  | cons a l =>
    by_cases ha : a.isDigit
    · simp [takeDigits, ha] at h
    · exact takeDigits_cons_of_not _ (Bool.eq_false_iff.mpr ha)

/-! ### The module computation on well-shaped inputs -/

/-- Parsing `X.Y.Z` followed by a non-whitespace tag `T` (starting with a
non-digit) and one digit `d`: all three numeric captures are kept as strings,
the release tag is normalized, and the serial is the digit string. -/
theorem parseVersion_suffix (X Y Z T : List Char) (d : Char)
    (hX : X ≠ []) (hXd : X.all Char.isDigit = true)
    (hY : Y ≠ []) (hYd : Y.all Char.isDigit = true)
    (hZ : Z ≠ []) (hZd : Z.all Char.isDigit = true)
    (hT : T ≠ []) (hTns : (T.all fun c => !(pyIsSpace c)) = true)
    (hT0 : takeDigits T = []) (hd : d.isDigit = true) :
    parseVersion (String.mk (X ++ '.' :: (Y ++ '.' :: (Z ++ (T ++ [d]))))) =
      some ⟨PyVal.str (String.mk X), PyVal.str (String.mk Y),
            PyVal.str (String.mk Z), normalizeRelease (String.mk T),
            PyVal.str (String.mk [d])⟩ := by
  have h7 : takeDigits (T ++ [d]) = [] := takeDigits_append_nil hT hT0 [d]
  unfold parseVersion
  show (match reMatch (X ++ '.' :: (Y ++ '.' :: (Z ++ (T ++ [d])))) with
    | none => none
    | some m => _) = _
  rw [reMatch_append X Y Z (T ++ [d]) hX hXd hY hYd hZ hZd, h7,
    dropDigits_eq_self h7, groupMatch_append_single T d hT hTns hd]
  simp only [List.append_nil, List.isEmpty_eq_false.mpr hT, Bool.false_eq_true,
    if_false, List.isEmpty_cons, Option.some.injEq]

/-- Parsing a bare `X.Y.Z`: the numeric captures are kept as strings, the
release level defaults to `"final"` and the serial to the integer `0`. -/
theorem parseVersion_plain (X Y Z : List Char)
    (hX : X ≠ []) (hXd : X.all Char.isDigit = true)
    (hY : Y ≠ []) (hYd : Y.all Char.isDigit = true)
    (hZ : Z ≠ []) (hZd : Z.all Char.isDigit = true) :
    parseVersion (String.mk (X ++ '.' :: (Y ++ '.' :: Z))) =
      some ⟨PyVal.str (String.mk X), PyVal.str (String.mk Y),
            PyVal.str (String.mk Z), "final", PyVal.int 0⟩ := by
  have hz : Z = Z ++ ([] : List Char) := by simp
  unfold parseVersion
  show (match reMatch (X ++ '.' :: (Y ++ '.' :: Z)) with
    | none => none
    | some m => _) = _
  rw [hz, reMatch_append X Y Z [] hX hXd hY hYd hZ hZd]
  simp only [takeDigits_nil, dropDigits_nil, groupMatch_nil, List.append_nil,
    Option.some.injEq]
  congr 1

/-- Destructor for a successful module computation: the shape of every
produced record, including the structure of the raw captures. -/
theorem parseVersion_some {s : String} {v : VersionInfo}
    (h : parseVersion s = some v) :
    ∃ m, reMatch s.data = some m ∧
      v.major = PyVal.str (String.mk m.major) ∧ m.major ≠ [] ∧
      m.major.all Char.isDigit = true ∧
      v.minor = PyVal.str (String.mk m.minor) ∧ m.minor ≠ [] ∧
      m.minor.all Char.isDigit = true ∧
      v.micro = PyVal.str (String.mk m.patch) ∧ m.patch ≠ [] ∧
      m.patch.all Char.isDigit = true ∧
      ((m.group = none ∧ v.releaselevel = "final" ∧ v.serial = PyVal.int 0) ∨
       (∃ r c, m.group = some (r, [c]) ∧ r ≠ [] ∧
          (r.all fun x => !(pyIsSpace x)) = true ∧ takeDigits r = [] ∧
          c.isDigit = true ∧
          v.releaselevel = normalizeRelease (String.mk r) ∧
          v.serial = PyVal.str (String.mk [c]))) := by
  unfold parseVersion at h
  cases hm : reMatch s.data with
  | none => rw [hm] at h; exact absurd h (by simp)
  | some m =>
    rw [hm] at h
    obtain ⟨hmaj, hmajd, hmin, hmind, hpat, hpatd, t, ht, hg⟩ := reMatch_spec hm
    cases hgr : m.group with
    | none =>
      simp only [hgr] at h
      injection h with h
      subst h
      exact ⟨m, rfl, rfl, hmaj, hmajd, rfl, hmin, hmind, rfl, hpat, hpatd,
        Or.inl ⟨hgr, rfl, rfl⟩⟩
    | some p =>
      obtain ⟨r, b⟩ := p
      rw [hgr] at hg
      obtain ⟨hrne, hrns, c, rest, hcd, hbc, hteq, hrest⟩ := groupMatch_spec hg.symm
      have hr0 : takeDigits r = [] := by
        rw [hteq] at ht
        exact takeDigits_nil_of_append ht
      subst hbc
      simp only [hgr, List.isEmpty_eq_false.mpr hrne, Bool.false_eq_true,
        if_false, List.isEmpty_cons, Option.some.injEq] at h
      subst h
      exact ⟨m, rfl, rfl, hmaj, hmajd, rfl, hmin, hmind, rfl, hpat, hpatd,
        Or.inr ⟨r, c, hgr, hrne, hrns, hr0, hcd, rfl, rfl⟩⟩

/-- An all-`p` prefix of `l` is a prefix of `l.takeWhile p`. -/
theorem prefix_takeWhile_of_all {p : Char → Bool} :
    ∀ {P l : List Char}, P <+: l → P.all p = true → P <+: l.takeWhile p := by
  intro P
  induction P with
  | nil => exact fun _ _ => List.nil_prefix
  | cons a P2 ih =>
    intro l hpre hall
    obtain ⟨u, hu⟩ := hpre
    subst hu
    simp only [List.all_cons, Bool.and_eq_true] at hall
    rw [List.cons_append, List.takeWhile_cons, if_pos hall.1]
    exact List.cons_prefix_cons.mpr ⟨rfl, ih ⟨u, rfl⟩ hall.2⟩

/-- Unfolding `render` on a record with an integer serial. -/
theorem render_fields (A B C : List Char) (rl : String) (k : Int) :
    render ⟨PyVal.str (String.mk A), PyVal.str (String.mk B),
            PyVal.str (String.mk C), rl, PyVal.int k⟩ =
      String.mk (A ++ '.' :: (B ++ '.' :: C)) := by
  show String.mk A ++ "." ++ String.mk B ++ "." ++ String.mk C = _
  apply String.ext
  simp only [String.data_append]
  simp [show ("." : String).data = ['.'] from rfl]

/-- Unfolding `render` on a record with a string serial. -/
theorem render_fields_suffix (A B C : List Char) (rl : String) (D : List Char) :
    render ⟨PyVal.str (String.mk A), PyVal.str (String.mk B),
            PyVal.str (String.mk C), rl, PyVal.str (String.mk D)⟩ =
      String.mk (A ++ '.' :: (B ++ '.' :: (C ++ (rl.data ++ D)))) := by
  show String.mk A ++ "." ++ String.mk B ++ "." ++ String.mk C ++ rl ++
      String.mk D = _
  apply String.ext
  simp only [String.data_append]
  simp [show ("." : String).data = ['.'] from rfl]

/-! ### Claims -/

/-- C1: on the input `"abc"`, which does not match the leading
`major.minor.patch` pattern, the module computation fails and produces no
`VersionInfo` record.  (The code signals this failure by subscripting the
`None` match object, a `TypeError`, not by raising a dedicated
`MalformedVersionError` as the spec states.) -/
theorem parse_malformed_abc_fails : parseVersion "abc" = none := by decide

/-- C2 counterexample: on `"1.0.0a34"` — tag `a` followed by the two-digit
sequence `34` — the record has releaselevel `"a3"` (not `"alpha"`) and
serial `"4"` (not the entire digit sequence `"34"`). -/
theorem alpha_multi_digit_cex :
    parseVersion "1.0.0a34" =
      some ⟨PyVal.str "1", PyVal.str "0", PyVal.str "0", "a3", PyVal.str "4"⟩ ∧
    (parseVersion "1.0.0a34").map VersionInfo.releaselevel ≠ some "alpha" ∧
    (parseVersion "1.0.0a34").map VersionInfo.serial ≠ some (PyVal.str "34") :=
  ⟨by decide, by decide, by decide⟩

/-- C2 (amended): for every valid input `X.Y.Z` followed by the tag `a` and a
single digit `d`, parsing yields releaselevel `"alpha"` and serial `d`. -/
theorem parse_alpha_single_digit (X Y Z : List Char) (d : Char)
    (hX : X ≠ []) (hXd : X.all Char.isDigit = true)
    (hY : Y ≠ []) (hYd : Y.all Char.isDigit = true)
    (hZ : Z ≠ []) (hZd : Z.all Char.isDigit = true)
    (hd : d.isDigit = true) :
    parseVersion (String.mk (X ++ '.' :: (Y ++ '.' :: (Z ++ ('a' :: [d]))))) =
      some ⟨PyVal.str (String.mk X), PyVal.str (String.mk Y),
            PyVal.str (String.mk Z), "alpha", PyVal.str (String.mk [d])⟩ := by
  have hnorm : normalizeRelease (String.mk ['a']) = "alpha" := by decide
  rw [show ('a' :: [d] : List Char) = ['a'] ++ [d] from rfl,
    parseVersion_suffix X Y Z ['a'] d hX hXd hY hYd hZ hZd (by simp)
      (by decide) (by decide) hd, hnorm]

/-- Witness for C2 at `"1.0.0a3"`: releaselevel `"alpha"`, serial `"3"`. -/
theorem parse_alpha_single_digit_w :
    parseVersion (String.mk ['1', '.', '0', '.', '0', 'a', '3']) =
      some ⟨PyVal.str "1", PyVal.str "0", PyVal.str "0", "alpha",
            PyVal.str "3"⟩ :=
  parse_alpha_single_digit ['1'] ['0'] ['0'] '3' (by decide) (by decide)
    (by decide) (by decide) (by decide) (by decide) (by decide)

/-- C3 counterexample: on `"0.1.0rc25"` — tag `rc` followed by the two-digit
sequence `25` — the record has releaselevel `"rc2"` (not `"candidate"`) and
serial `"5"` (not the entire digit sequence `"25"`). -/
theorem candidate_multi_digit_cex :
    parseVersion "0.1.0rc25" =
      some ⟨PyVal.str "0", PyVal.str "1", PyVal.str "0", "rc2", PyVal.str "5"⟩ ∧
    (parseVersion "0.1.0rc25").map VersionInfo.releaselevel ≠ some "candidate" ∧
    (parseVersion "0.1.0rc25").map VersionInfo.serial ≠ some (PyVal.str "25") :=
  ⟨by decide, by decide, by decide⟩

/-- C3 (amended): for every valid input `X.Y.Z` followed by the tag `rc` and
a single digit `d`, parsing yields releaselevel `"candidate"` and serial
`d`. -/
theorem parse_candidate_single_digit (X Y Z : List Char) (d : Char)
    (hX : X ≠ []) (hXd : X.all Char.isDigit = true)
    (hY : Y ≠ []) (hYd : Y.all Char.isDigit = true)
    (hZ : Z ≠ []) (hZd : Z.all Char.isDigit = true)
    (hd : d.isDigit = true) :
    parseVersion (String.mk (X ++ '.' :: (Y ++ '.' ::
        (Z ++ ('r' :: 'c' :: [d]))))) =
      some ⟨PyVal.str (String.mk X), PyVal.str (String.mk Y),
            PyVal.str (String.mk Z), "candidate", PyVal.str (String.mk [d])⟩ := by
  have hnorm : normalizeRelease (String.mk ['r', 'c']) = "candidate" := by decide
  rw [show ('r' :: 'c' :: [d] : List Char) = ['r', 'c'] ++ [d] from rfl,
    parseVersion_suffix X Y Z ['r', 'c'] d hX hXd hY hYd hZ hZd (by simp)
      (by decide) (by decide) hd, hnorm]

/-- Witness for C3 at `"0.1.0rc2"`: releaselevel `"candidate"`, serial
`"2"`. -/
theorem parse_candidate_single_digit_w :
    parseVersion (String.mk ['0', '.', '1', '.', '0', 'r', 'c', '2']) =
      some ⟨PyVal.str "0", PyVal.str "1", PyVal.str "0", "candidate",
            PyVal.str "2"⟩ :=
  parse_candidate_single_digit ['0'] ['1'] ['0'] '2' (by decide) (by decide)
    (by decide) (by decide) (by decide) (by decide) (by decide)

/-- C4 counterexample: on `"1.0.0b1"` the record's releaselevel is `"b"`,
which is none of the three canonical labels. -/
theorem releaselevel_noncanonical_cex :
    parseVersion "1.0.0b1" =
      some ⟨PyVal.str "1", PyVal.str "0", PyVal.str "0", "b", PyVal.str "1"⟩ ∧
    ("b" : String) ≠ "alpha" ∧ ("b" : String) ≠ "candidate" ∧
    ("b" : String) ≠ "final" :=
  ⟨by decide, by decide, by decide, by decide⟩

/-- C4 (amended): the releaselevel of every produced record is one of the
three canonical labels, or else the raw tag passed through unchanged — and
that raw tag is then neither `"a"` nor `"rc"`, since those are the two that
get normalized. -/
theorem releaselevel_canonical_or_passthrough (s : String) (v : VersionInfo)
    (h : parseVersion s = some v) :
    v.releaselevel = "alpha" ∨ v.releaselevel = "candidate" ∨
      v.releaselevel = "final" ∨
      ∃ r b, rawGroup s = some (r, b) ∧ v.releaselevel = String.mk r ∧
        String.mk r ≠ "a" ∧ String.mk r ≠ "rc" := by
  obtain ⟨m, hm, _, _, _, _, _, _, _, _, _, hcase⟩ := parseVersion_some h
  rcases hcase with ⟨_, hrel, _⟩ | ⟨r, c, hg, _, _, _, _, hrel, _⟩
  · exact Or.inr (Or.inr (Or.inl hrel))
  · rcases normalizeRelease_cases (String.mk r) with hn | hn | hn
    · exact Or.inl (hrel.trans hn)
    · exact Or.inr (Or.inl (hrel.trans hn))
    · refine Or.inr (Or.inr (Or.inr ⟨r, [c], ?_, hrel.trans hn, ?_, ?_⟩))
      · unfold rawGroup; rw [hm]; exact hg
      · intro hra; rw [hra] at hn; exact absurd hn (by decide)
      · intro hrc; rw [hrc] at hn; exact absurd hn (by decide)

/-- Witness for C4 at `"1.0.0b1"`. -/
theorem releaselevel_canonical_or_passthrough_w :
    parseVersion "1.0.0b1" =
      some ⟨PyVal.str "1", PyVal.str "0", PyVal.str "0", "b", PyVal.str "1"⟩ ∧
    (("b" : String) = "alpha" ∨ ("b" : String) = "candidate" ∨
      ("b" : String) = "final" ∨
      ∃ r b2, rawGroup "1.0.0b1" = some (r, b2) ∧ ("b" : String) = String.mk r ∧
        String.mk r ≠ "a" ∧ String.mk r ≠ "rc") :=
  ⟨by decide, releaselevel_canonical_or_passthrough "1.0.0b1"
    ⟨PyVal.str "1", PyVal.str "0", PyVal.str "0", "b", PyVal.str "1"⟩
    (by decide)⟩

/-- C5 counterexample: on `"2.3.10"` the major field is the string `"2"`,
not a (non-negative) integer — no integer conversion is performed. -/
theorem numeric_fields_not_integers_cex :
    parseVersion "2.3.10" =
      some ⟨PyVal.str "2", PyVal.str "3", PyVal.str "10", "final",
            PyVal.int 0⟩ ∧
    ∀ n : Int, (PyVal.str "2" : PyVal) ≠ PyVal.int n :=
  ⟨by decide, fun _ h => PyVal.noConfusion h⟩

/-- C5 (amended): for every valid input `X.Y.Z` with no suffix, parsing
yields major, minor and micro equal to the captured decimal digit strings
`X`, `Y`, `Z` (kept as strings, not converted to integers),
releaselevel `"final"` and serial the integer `0`. -/
theorem parse_plain_version (X Y Z : List Char)
    (hX : X ≠ []) (hXd : X.all Char.isDigit = true)
    (hY : Y ≠ []) (hYd : Y.all Char.isDigit = true)
    (hZ : Z ≠ []) (hZd : Z.all Char.isDigit = true) :
    parseVersion (String.mk (X ++ '.' :: (Y ++ '.' :: Z))) =
      some ⟨PyVal.str (String.mk X), PyVal.str (String.mk Y),
            PyVal.str (String.mk Z), "final", PyVal.int 0⟩ :=
  parseVersion_plain X Y Z hX hXd hY hYd hZ hZd

/-- Witness for C5 at `"2.3.10"`. -/
theorem parse_plain_version_w :
    parseVersion (String.mk ['2', '.', '3', '.', '1', '0']) =
      some ⟨PyVal.str "2", PyVal.str "3", PyVal.str "10", "final",
            PyVal.int 0⟩ :=
  parse_plain_version ['2'] ['3'] ['1', '0'] (by decide) (by decide)
    (by decide) (by decide) (by decide) (by decide)

/-- C6 counterexample: on `"1.0.0b34"` — non-digit tag `b` followed by the
digit sequence `34` — the record has releaselevel `"b3"` (not the tag `"b"`)
and serial `"4"` (not the digit sequence `"34"`). -/
theorem other_tag_multi_digit_cex :
    parseVersion "1.0.0b34" =
      some ⟨PyVal.str "1", PyVal.str "0", PyVal.str "0", "b3", PyVal.str "4"⟩ ∧
    (parseVersion "1.0.0b34").map VersionInfo.releaselevel ≠ some "b" ∧
    (parseVersion "1.0.0b34").map VersionInfo.serial ≠ some (PyVal.str "34") :=
  ⟨by decide, by decide, by decide⟩

/-- C6 (amended): for every valid input `X.Y.Z` followed by a nonempty
non-digit non-whitespace tag `T` other than `a` and `rc` and a single digit
`d`, parsing yields releaselevel `T` unchanged and serial `d`. -/
theorem parse_other_tag_single_digit (X Y Z T : List Char) (d : Char)
    (hX : X ≠ []) (hXd : X.all Char.isDigit = true)
    (hY : Y ≠ []) (hYd : Y.all Char.isDigit = true)
    (hZ : Z ≠ []) (hZd : Z.all Char.isDigit = true)
    (hT : T ≠ []) (hTnd : (T.all fun c => !(c.isDigit)) = true)
    (hTns : (T.all fun c => !(pyIsSpace c)) = true)
    (hTa : String.mk T ≠ "a") (hTrc : String.mk T ≠ "rc")
    (hd : d.isDigit = true) :
    parseVersion (String.mk (X ++ '.' :: (Y ++ '.' :: (Z ++ (T ++ [d]))))) =
      some ⟨PyVal.str (String.mk X), PyVal.str (String.mk Y),
            PyVal.str (String.mk Z), String.mk T,
            PyVal.str (String.mk [d])⟩ := by
  have hT0 : takeDigits T = [] := by
    cases T with
    | nil => rfl
    | cons a l =>
      simp only [List.all_cons, Bool.and_eq_true, Bool.not_eq_true'] at hTnd
      exact takeDigits_cons_of_not _ hTnd.1
  rw [parseVersion_suffix X Y Z T d hX hXd hY hYd hZ hZd hT hTns hT0 hd,
    normalizeRelease_of_ne hTa hTrc]

/-- Witness for C6 at `"9.9.9b7"`: releaselevel `"b"`, serial `"7"`. -/
theorem parse_other_tag_single_digit_w :
    parseVersion (String.mk ['9', '.', '9', '.', '9', 'b', '7']) =
      some ⟨PyVal.str "9", PyVal.str "9", PyVal.str "9", "b", PyVal.str "7"⟩ :=
  parse_other_tag_single_digit ['9'] ['9'] ['9'] ['b'] '7' (by decide)
    (by decide) (by decide) (by decide) (by decide) (by decide) (by decide)
    (by decide) (by decide) (by decide) (by decide) (by decide)

/-- C7: re-parsing the canonical string representation of any produced
record yields a record equal to the original. -/
theorem parse_render_roundtrip (s : String) (v : VersionInfo)
    (h : parseVersion s = some v) : parseVersion (render v) = some v := by
  obtain ⟨vmaj, vmin, vmic, vrel, vser⟩ := v
  obtain ⟨m, hm, hmaj, hmajne, hmajd, hmin, hminne, hmind, hmic, hmicne, hmicd,
    hcase⟩ := parseVersion_some h
  rw [show vmaj = PyVal.str (String.mk m.major) from hmaj,
    show vmin = PyVal.str (String.mk m.minor) from hmin,
    show vmic = PyVal.str (String.mk m.patch) from hmic]
  rcases hcase with ⟨_, hrel, hser⟩ | ⟨r, c, _, hrne, hrns, hr0, hcd, hrel, hser⟩
  · rw [show vrel = "final" from hrel, show vser = PyVal.int 0 from hser,
      render_fields]
    exact parseVersion_plain m.major m.minor m.patch hmajne hmajd hminne hmind
      hmicne hmicd
  · rw [show vrel = normalizeRelease (String.mk r) from hrel,
      show vser = PyVal.str (String.mk [c]) from hser, render_fields_suffix]
    have hRd : String.mk (normalizeRelease (String.mk r)).data =
        normalizeRelease (String.mk r) := strMk_data _
    have hprops : (normalizeRelease (String.mk r)).data ≠ [] ∧
        ((normalizeRelease (String.mk r)).data.all fun x => !(pyIsSpace x)) =
          true ∧
        takeDigits (normalizeRelease (String.mk r)).data = [] := by
      rcases normalizeRelease_cases (String.mk r) with hn | hn | hn
      · rw [hn]; exact ⟨by decide, by decide, by decide⟩
      · rw [hn]; exact ⟨by decide, by decide, by decide⟩
      · rw [hn]; exact ⟨hrne, hrns, hr0⟩
    rw [parseVersion_suffix m.major m.minor m.patch
      (normalizeRelease (String.mk r)).data c hmajne hmajd hminne hmind hmicne
      hmicd hprops.1 hprops.2.1 hprops.2.2 hcd, hRd,
      normalizeRelease_of_ne (normalizeRelease_ne (String.mk r)).1
        (normalizeRelease_ne (String.mk r)).2]

/-- Witness for C7 at `"1.0.0a3"`: the produced record renders to a string
that parses back to the same record. -/
theorem parse_render_roundtrip_w :
    parseVersion "1.0.0a3" =
      some ⟨PyVal.str "1", PyVal.str "0", PyVal.str "0", "alpha",
            PyVal.str "3"⟩ ∧
    parseVersion (render ⟨PyVal.str "1", PyVal.str "0", PyVal.str "0",
        "alpha", PyVal.str "3"⟩) =
      some ⟨PyVal.str "1", PyVal.str "0", PyVal.str "0", "alpha",
            PyVal.str "3"⟩ :=
  ⟨by decide, parse_render_roundtrip "1.0.0a3"
    ⟨PyVal.str "1", PyVal.str "0", PyVal.str "0", "alpha", PyVal.str "3"⟩
    (by decide)⟩

/-- C8: whenever the optional suffix group participates in the match, its
build capture is exactly one digit — the greedy non-whitespace release
capture absorbs all earlier characters — so the serial of the record is that
single-digit string, and the releaselevel is the (normalized) release
capture holding everything before it. -/
theorem serial_single_digit (s : String) (v : VersionInfo) (r b : List Char)
    (h : parseVersion s = some v) (hg : rawGroup s = some (r, b)) :
    ∃ c, c.isDigit = true ∧ b = [c] ∧ v.serial = PyVal.str (String.mk [c]) ∧
      v.releaselevel = normalizeRelease (String.mk r) := by
  obtain ⟨m, hm, _, _, _, _, _, _, _, _, _, hcase⟩ := parseVersion_some h
  unfold rawGroup at hg
  rw [hm] at hg
  have hgm : m.group = some (r, b) := hg
  rcases hcase with ⟨hgn, _, _⟩ | ⟨r2, c, hg2, _, _, _, hcd, hrel, hser⟩
  · rw [hgn] at hgm; exact absurd hgm (by simp)
  · rw [hg2] at hgm
    simp only [Option.some.injEq, Prod.mk.injEq] at hgm
    obtain ⟨h1, h2⟩ := hgm
    subst h1
    subst h2
    exact ⟨c, hcd, rfl, hser, hrel⟩

/-- Witness for C8 at `"1.0.0a34"`: the release capture is `"a3"` and the
build capture is the single digit `"4"`. -/
theorem serial_single_digit_w :
    parseVersion "1.0.0a34" =
      some ⟨PyVal.str "1", PyVal.str "0", PyVal.str "0", "a3", PyVal.str "4"⟩ ∧
    rawGroup "1.0.0a34" = some (['a', '3'], ['4']) ∧
    ∃ c, c.isDigit = true ∧ (['4'] : List Char) = [c] ∧
      (PyVal.str "4" : PyVal) = PyVal.str (String.mk [c]) ∧
      ("a3" : String) = normalizeRelease (String.mk ['a', '3']) :=
  ⟨by decide, by decide,
    serial_single_digit "1.0.0a34"
      ⟨PyVal.str "1", PyVal.str "0", PyVal.str "0", "a3", PyVal.str "4"⟩
      ['a', '3'] ['4'] (by decide) (by decide)⟩

/-- C9: every input that starts with a `digits.digits.digits` prefix parses
successfully to a record, whatever follows; and when the trailing text
cannot feed the suffix group — no digit in it is preceded purely by
non-whitespace characters, e.g. a bare trailing letter or whitespace
followed by anything — it is silently ignored: releaselevel `"final"`,
serial the integer `0`. -/
theorem parse_ignores_unmatchable_trailing (X Y Z rest : List Char)
    (hX : X ≠ []) (hXd : X.all Char.isDigit = true)
    (hY : Y ≠ []) (hYd : Y.all Char.isDigit = true)
    (hZ : Z ≠ []) (hZd : Z.all Char.isDigit = true) :
    (parseVersion (String.mk (X ++ '.' :: (Y ++ '.' :: (Z ++ rest))))).isSome =
      true ∧
    (((rest.takeWhile fun c => !(pyIsSpace c)).all fun c => !(c.isDigit)) =
        true →
      parseVersion (String.mk (X ++ '.' :: (Y ++ '.' :: (Z ++ rest)))) =
        some ⟨PyVal.str (String.mk X), PyVal.str (String.mk Y),
              PyVal.str (String.mk Z), "final", PyVal.int 0⟩) := by
  constructor
  · unfold parseVersion
    show (match reMatch (X ++ '.' :: (Y ++ '.' :: (Z ++ rest))) with
      | none => none
      | some m => _).isSome = true
    rw [reMatch_append X Y Z rest hX hXd hY hYd hZ hZd]
    rfl
  · intro H
    have hrest0 : takeDigits rest = [] := by
      cases rest with
      | nil => rfl
      | cons a l =>
        by_cases ha : a.isDigit = true
        · exfalso
          rw [List.takeWhile_cons, if_pos (by simp [digit_not_space ha])] at H
          simp only [List.all_cons, Bool.and_eq_true, Bool.not_eq_true'] at H
          rw [H.1] at ha
          exact Bool.noConfusion ha
        · exact takeDigits_cons_of_not _ (Bool.eq_false_iff.mpr ha)
    have hgm : groupMatch rest = none := by
      cases hg : groupMatch rest with
      | none => rfl
      | some p =>
        obtain ⟨r, b⟩ := p
        obtain ⟨hrne, hrns, c, rest2, hcd, hbc, hteq, _⟩ := groupMatch_spec hg
        exfalso
        have hpre : (r ++ [c]) <+: rest := ⟨rest2, by rw [hteq]; simp⟩
        have hallp : ((r ++ [c]).all fun x => !(pyIsSpace x)) = true := by
          simp [List.all_append, hrns, digit_not_space hcd]
        have hsub := (prefix_takeWhile_of_all hpre hallp).subset
        have hcmem : c ∈ rest.takeWhile fun x => !(pyIsSpace x) :=
          hsub (by simp)
        have hcontra := List.all_eq_true.mp H c hcmem
        rw [hcd] at hcontra
        exact Bool.noConfusion hcontra
    unfold parseVersion
    show (match reMatch (X ++ '.' :: (Y ++ '.' :: (Z ++ rest))) with
      | none => none
      | some m => _) = _
    rw [reMatch_append X Y Z rest hX hXd hY hYd hZ hZd,
      dropDigits_eq_self hrest0, hgm, hrest0]
    simp only [List.append_nil, Option.some.injEq]
    congr 1

/-- Witness for C9 at `"1.2.3x"`: parsing succeeds and the bare trailing
letter is ignored. -/
theorem parse_ignores_unmatchable_trailing_w :
    (parseVersion (String.mk (['1'] ++ '.' :: (['2'] ++ '.' ::
        (['3'] ++ ['x']))))).isSome = true ∧
    parseVersion (String.mk (['1'] ++ '.' :: (['2'] ++ '.' ::
        (['3'] ++ ['x'])))) =
      some ⟨PyVal.str "1", PyVal.str "2", PyVal.str "3", "final",
            PyVal.int 0⟩ :=
  have h := parse_ignores_unmatchable_trailing ['1'] ['2'] ['3'] ['x']
    (by decide) (by decide) (by decide) (by decide) (by decide) (by decide)
  ⟨h.1, h.2 (by decide)⟩

/-- C10: in every produced record, major, minor and micro are the captured
digit strings (never integers), while serial is the integer `0` exactly when
the suffix group did not participate and a digit string whenever it did. -/
theorem fields_heterogeneously_typed (s : String) (v : VersionInfo)
    (h : parseVersion s = some v) :
    (∃ a, v.major = PyVal.str (String.mk a) ∧ a ≠ [] ∧
      a.all Char.isDigit = true) ∧
    (∃ a, v.minor = PyVal.str (String.mk a) ∧ a ≠ [] ∧
      a.all Char.isDigit = true) ∧
    (∃ a, v.micro = PyVal.str (String.mk a) ∧ a ≠ [] ∧
      a.all Char.isDigit = true) ∧
    ((rawGroup s = none ∧ v.serial = PyVal.int 0) ∨
      (∃ r b, rawGroup s = some (r, b) ∧ b ≠ [] ∧ b.all Char.isDigit = true ∧
        v.serial = PyVal.str (String.mk b))) := by
  obtain ⟨m, hm, hmaj, hmajne, hmajd, hmin, hminne, hmind, hmic, hmicne, hmicd,
    hcase⟩ := parseVersion_some h
  refine ⟨⟨m.major, hmaj, hmajne, hmajd⟩, ⟨m.minor, hmin, hminne, hmind⟩,
    ⟨m.patch, hmic, hmicne, hmicd⟩, ?_⟩
  have hrg : rawGroup s = m.group := by unfold rawGroup; rw [hm]
  rcases hcase with ⟨hgn, _, hser⟩ | ⟨r, c, hg, _, _, _, hcd, _, hser⟩
  · exact Or.inl ⟨hrg.trans hgn, hser⟩
  · exact Or.inr ⟨r, [c], hrg.trans hg, by simp, by simp [hcd], hser⟩

/-- Witness for C10 at `"1.0.0a3"`. -/
theorem fields_heterogeneously_typed_w :
    parseVersion "1.0.0a3" =
      some ⟨PyVal.str "1", PyVal.str "0", PyVal.str "0", "alpha",
            PyVal.str "3"⟩ ∧
    ((∃ a, (PyVal.str "1" : PyVal) = PyVal.str (String.mk a) ∧ a ≠ [] ∧
        a.all Char.isDigit = true) ∧
     (∃ a, (PyVal.str "0" : PyVal) = PyVal.str (String.mk a) ∧ a ≠ [] ∧
        a.all Char.isDigit = true) ∧
     (∃ a, (PyVal.str "0" : PyVal) = PyVal.str (String.mk a) ∧ a ≠ [] ∧
        a.all Char.isDigit = true) ∧
     ((rawGroup "1.0.0a3" = none ∧ (PyVal.str "3" : PyVal) = PyVal.int 0) ∨
       (∃ r b, rawGroup "1.0.0a3" = some (r, b) ∧ b ≠ [] ∧
         b.all Char.isDigit = true ∧
         (PyVal.str "3" : PyVal) = PyVal.str (String.mk b)))) :=
  ⟨by decide, fields_heterogeneously_typed "1.0.0a3"
    ⟨PyVal.str "1", PyVal.str "0", PyVal.str "0", "alpha", PyVal.str "3"⟩
    (by decide)⟩

end JupyterVersion
